import Mathlib

/-!
# Verification of the in-memory canonical chain state

Shallow embedding of `crates/chain-state/src/in_memory.rs`:
the `InMemoryState` index (hash map, number map, pending slot), the
`BlockState` parent-linked chain nodes, the `update_blocks` /
`update_chain` / `remove_persisted_blocks` mutation protocol, the query
surface (`state_by_hash`, `state_by_number`, `head_state`,
`pending_state`), the chain walks (`parent_state_chain`, `chain`,
`anchor`), receipts extraction, and `to_chain_notification`.

Hashes (`B256`) and addresses are modelled as `Nat`; the two Rust
`HashMap`s are modelled as association lists with replace-on-insert
semantics (`insertKey` conses the new entry after erasing the key,
`eraseKey` drops every entry with the key), which is extensionally the
`HashMap` contract.  `Arc`/`RwLock` wrappers carry no value-level
content and are dropped; all operations are sequential functions on the
state value, matching the single critical section each Rust method
holds.
-/

namespace Reth

/-- A sealed block: the cached block hash plus the header fields the
chain-state code reads (`parent_hash`, `number`).  Other header and body
contents are opaque to `in_memory.rs`. -/
structure SealedBlock where
  hash : Nat
  number : Nat
  parent_hash : Nat
deriving DecidableEq, Repr

/-- Rust `Receipts` from the execution outcome: `receipt_vec` is one receipt
list per block, each receipt optional.  A receipt itself is opaque here
(modelled as `Nat`). -/
structure Receipts where
  receipt_vec : List (List (Option Nat))
deriving DecidableEq, Repr

/-- The execution outcome attached to an executed block; only its
`receipts` field is read by the chain-state code, the bundled state diff
is opaque payload. -/
structure ExecutionOutcome where
  receipts : Receipts
  bundle : Nat
deriving DecidableEq, Repr

/-- Rust `ExecutedBlock`: sealed block, senders, execution outcome, plus the
hashed post-state and trie updates (opaque payloads). -/
structure ExecutedBlock where
  block : SealedBlock
  senders : List Nat
  execution_output : ExecutionOutcome
  hashed_state : Nat
  trie : Nat
deriving DecidableEq, Repr

/-- Rust `SealedBlockWithSenders` as produced by
`ExecutedBlock::sealed_block_with_senders`. -/
structure SealedBlockWithSenders where
  block : SealedBlock
  senders : List Nat
deriving DecidableEq, Repr

/-- Rust `ExecutedBlock::sealed_block_with_senders`. -/
def ExecutedBlock.sealed_block_with_senders (b : ExecutedBlock) : SealedBlockWithSenders :=
  { block := b.block, senders := b.senders }

/-- Rust `BlockState`: one executed block plus an optional (boxed, owned)
parent `BlockState`. -/
inductive BlockState : Type where
  | mk (block : ExecutedBlock) (parent : Option BlockState) : BlockState

/-- Field accessor for the wrapped executed block. -/
def BlockState.blockField : BlockState → ExecutedBlock
  | .mk b _ => b

/-- Field accessor for the parent link. -/
def BlockState.parent : BlockState → Option BlockState
  | .mk _ p => p

/-- Rust `BlockState::new`: a root state with no parent. -/
def BlockState.new (block : ExecutedBlock) : BlockState := .mk block none

/-- Rust `BlockState::with_parent`. -/
def BlockState.with_parent (block : ExecutedBlock) (parent : Option BlockState) : BlockState :=
  .mk block parent

/-- Rust `BlockState::block` (returns a clone of the executed block). -/
def BlockState.block (s : BlockState) : ExecutedBlock := s.blockField

/-- Rust `BlockState::hash`. -/
def BlockState.hash (s : BlockState) : Nat := s.blockField.block.hash

/-- Rust `BlockState::number`. -/
def BlockState.number (s : BlockState) : Nat := s.blockField.block.number

/-- Rust `BlockState::receipts`. -/
def BlockState.receipts (s : BlockState) : Receipts :=
  s.blockField.execution_output.receipts

/-- The condition of the `debug_assert!` inside
`BlockState::executed_block_receipts`: the outcome carries at most one
block's worth of receipts. -/
def BlockState.receipts_assert_ok (s : BlockState) : Bool :=
  decide (s.receipts.receipt_vec.length ≤ 1)

/-- Rust `BlockState::executed_block_receipts`: the non-`None` receipts of
the first receipt list of the outcome, or an empty vector when the
outcome carries no receipt list. -/
def BlockState.executed_block_receipts (s : BlockState) : List Nat :=
  match s.receipts.receipt_vec.head? with
  | some block_receipts => block_receipts.filterMap id
  | none => []

/-- Rust `block.parent_num_hash()`: the (number, hash) pair of a block's
parent as recorded in its own header. -/
def SealedBlock.parent_num_hash (b : SealedBlock) : Nat × Nat :=
  (b.number - 1, b.parent_hash)

/-- Rust `BlockState::anchor`: recurse to the oldest tracked ancestor and
return its on-disk parent reference. -/
def BlockState.anchor : BlockState → Nat × Nat
  | .mk b none => b.block.parent_num_hash
  | .mk _ (some p) => BlockState.anchor p

/-- Rust `BlockState::parent_state_chain`: the ancestors, oldest first. -/
def BlockState.parent_state_chain : BlockState → List BlockState
  | .mk _ none => []
  | .mk _ (some p) => BlockState.parent_state_chain p ++ [p]

/-- Rust `BlockState::chain`: the ancestors oldest first, then self. -/
def BlockState.chain (s : BlockState) : List BlockState :=
  s.parent_state_chain ++ [s]

/-! ## Association-list model of the two `HashMap`s -/

/-- Rust `HashMap::get` on the association-list model. -/
def lookupKey {V : Type} : List (Nat × V) → Nat → Option V
  | [], _ => none
  | e :: es, k => if e.1 = k then some e.2 else lookupKey es k

/-- Rust `HashMap::remove` on the association-list model: drop every entry
with the key. -/
def eraseKey {V : Type} (m : List (Nat × V)) (k : Nat) : List (Nat × V) :=
  m.filter (fun e => e.1 ≠ k)

/-- Rust `HashMap::insert` on the association-list model: replace any entry
with the key. -/
def insertKey {V : Type} (m : List (Nat × V)) (k : Nat) (v : V) : List (Nat × V) :=
  (k, v) :: eraseKey m k

/-- Keys are pairwise distinct (every reachable map state satisfies
this; the constructors below preserve it). -/
def nodupKeys {V : Type} (m : List (Nat × V)) : Prop :=
  (m.map Prod.fst).Nodup

/-- Rust `iter().max_by_key(|(number, _)| number)`: an entry of maximal key,
`none` on the empty map. -/
def maxKeyEntry : List (Nat × Nat) → Option (Nat × Nat)
  | [] => none
  | e :: es =>
    match maxKeyEntry es with
    | none => some e
    | some m => if e.1 ≤ m.1 then some m else some e

/-! ## `InMemoryState` and its operations -/

/-- Rust `InMemoryState`: hash → `BlockState`, number → hash, and the pending
slot. -/
structure InMemoryState where
  blocks : List (Nat × BlockState)
  numbers : List (Nat × Nat)
  pending : Option BlockState

/-- Rust `InMemoryState::state_by_hash`. -/
def state_by_hash (s : InMemoryState) (hash : Nat) : Option BlockState :=
  lookupKey s.blocks hash

/-- Rust `InMemoryState::state_by_number`. -/
def state_by_number (s : InMemoryState) (number : Nat) : Option BlockState :=
  (lookupKey s.numbers number).bind (fun hash => lookupKey s.blocks hash)

/-- Rust `InMemoryState::head_state`: entry of maximal number, then resolve
its hash in the block map. -/
def head_state (s : InMemoryState) : Option BlockState :=
  (maxKeyEntry s.numbers).bind (fun e => lookupKey s.blocks e.2)

/-- Rust `InMemoryState::pending_state`: a fresh root `BlockState` built from
a clone of the pending block, parent link dropped. -/
def pending_state (s : InMemoryState) : Option BlockState :=
  s.pending.map (fun state => BlockState.new state.blockField)

/-- One iteration of the insertion loop shared by `update_blocks` and
`remove_persisted_blocks`: look the parent up in the current map, build
the `BlockState`, insert by hash and by number. -/
def insertBlock (s : InMemoryState) (block : ExecutedBlock) : InMemoryState :=
  let parent := lookupKey s.blocks block.block.parent_hash
  let block_state := BlockState.with_parent block parent
  { s with
    blocks := insertKey s.blocks block_state.hash block_state
    numbers := insertKey s.numbers block_state.number block_state.hash }

/-- One iteration of the removal loop of `update_blocks`: drop the
block's hash and number entries. -/
def removeBlock (s : InMemoryState) (block : ExecutedBlock) : InMemoryState :=
  { s with
    blocks := eraseKey s.blocks block.block.hash
    numbers := eraseKey s.numbers block.block.number }

/-- Rust `CanonicalInMemoryState::update_blocks`: remove the reorged chain,
insert the new blocks in order, clear the pending slot. -/
def update_blocks (s : InMemoryState) (new_blocks reorged : List ExecutedBlock) :
    InMemoryState :=
  let s1 := reorged.foldl removeBlock s
  let s2 := new_blocks.foldl insertBlock s1
  { s2 with pending := none }

/-- Rust `NewCanonicalChain`. -/
inductive NewCanonicalChain : Type where
  | Commit (new : List ExecutedBlock) : NewCanonicalChain
  | Reorg (new : List ExecutedBlock) (old : List ExecutedBlock) : NewCanonicalChain

/-- Rust `CanonicalInMemoryState::update_chain`. -/
def update_chain (s : InMemoryState) : NewCanonicalChain → InMemoryState
  | .Commit new => update_blocks s new []
  | .Reorg new old => update_blocks s new old

/-- Rust `CanonicalInMemoryState::remove_persisted_blocks`: clear the number
index, drain the block map, keep blocks above the persisted height, sort
ascending by number, re-insert re-deriving parent links. -/
def remove_persisted_blocks (s : InMemoryState) (persisted_height : Nat) : InMemoryState :=
  let old_blocks :=
    (s.blocks.map (fun e => e.2.blockField)).filter
      (fun b => decide (persisted_height < b.block.number))
  let sorted :=
    List.insertionSort (fun a b : ExecutedBlock => a.block.number ≤ b.block.number) old_blocks
  let cleared : InMemoryState := { blocks := [], numbers := [], pending := s.pending }
  sorted.foldl insertBlock cleared

/-! ## Notification construction -/

/-- A `Chain` as built by `Chain::new` inside `to_chain_notification`:
the blocks-with-senders and the single attached execution outcome. -/
structure Chain where
  blocks : List SealedBlockWithSenders
  execution_outcome : ExecutionOutcome
deriving DecidableEq, Repr

/-- Rust `CanonStateNotification`. -/
inductive CanonStateNotification : Type where
  | Commit (new : Chain) : CanonStateNotification
  | Reorg (new : Chain) (old : Chain) : CanonStateNotification
deriving DecidableEq, Repr

/-- Rust `NewCanonicalChain::to_chain_notification`.  The Rust code calls
`last().unwrap()`, which panics on an empty list; the panic is modelled
as `none`. -/
def to_chain_notification : NewCanonicalChain → Option CanonStateNotification
  | .Commit new =>
    new.getLast?.map (fun last =>
      .Commit
        { blocks := new.map ExecutedBlock.sealed_block_with_senders
          execution_outcome := last.execution_output })
  | .Reorg new old =>
    match new.getLast?, old.getLast? with
    | some lastNew, some lastOld =>
      some (.Reorg
        { blocks := new.map ExecutedBlock.sealed_block_with_senders
          execution_outcome := lastNew.execution_output }
        { blocks := old.map ExecutedBlock.sealed_block_with_senders
          execution_outcome := lastOld.execution_output })
    | _, _ => none

/-! ## Basic simp lemmas for `BlockState` accessors -/

@[simp] theorem BlockState.blockField_mk (b : ExecutedBlock) (p : Option BlockState) :
    (BlockState.mk b p).blockField = b := rfl

@[simp] theorem BlockState.parent_mk (b : ExecutedBlock) (p : Option BlockState) :
    (BlockState.mk b p).parent = p := rfl

@[simp] theorem BlockState.with_parent_blockField (b : ExecutedBlock) (p : Option BlockState) :
    (BlockState.with_parent b p).blockField = b := rfl

@[simp] theorem BlockState.with_parent_hash (b : ExecutedBlock) (p : Option BlockState) :
    (BlockState.with_parent b p).hash = b.block.hash := rfl

@[simp] theorem BlockState.with_parent_number (b : ExecutedBlock) (p : Option BlockState) :
    (BlockState.with_parent b p).number = b.block.number := rfl

@[simp] theorem BlockState.hash_mk (b : ExecutedBlock) (p : Option BlockState) :
    (BlockState.mk b p).hash = b.block.hash := rfl

@[simp] theorem BlockState.number_mk (b : ExecutedBlock) (p : Option BlockState) :
    (BlockState.mk b p).number = b.block.number := rfl

/-! ## Association-list lemmas -/

section MapLemmas

variable {V : Type}

theorem eraseKey_cons (e : Nat × V) (es : List (Nat × V)) (k : Nat) :
    eraseKey (e :: es) k = if e.1 = k then eraseKey es k else e :: eraseKey es k := by
  by_cases h : e.1 = k <;> simp [eraseKey, List.filter_cons, h]

theorem mem_eraseKey (e : Nat × V) (m : List (Nat × V)) (k : Nat) :
    e ∈ eraseKey m k ↔ e ∈ m ∧ e.1 ≠ k := by
  simp [eraseKey, List.mem_filter]

theorem mem_insertKey (e : Nat × V) (m : List (Nat × V)) (k : Nat) (v : V) :
    e ∈ insertKey m k v ↔ e = (k, v) ∨ (e ∈ m ∧ e.1 ≠ k) := by
  simp [insertKey, List.mem_cons, mem_eraseKey]

theorem lookupKey_eraseKey_self (m : List (Nat × V)) (k : Nat) :
    lookupKey (eraseKey m k) k = none := by
  induction m with
  | nil => rfl
  | cons e es ih =>
    rw [eraseKey_cons]
    by_cases h : e.1 = k
    · simpa [h] using ih
    · simpa [lookupKey, h] using ih

theorem lookupKey_eraseKey_ne (m : List (Nat × V)) (k k' : Nat) (h : k' ≠ k) :
    lookupKey (eraseKey m k) k' = lookupKey m k' := by
  induction m with
  | nil => rfl
  | cons e es ih =>
    rw [eraseKey_cons]
    by_cases he : e.1 = k
    · rw [if_pos he, ih, lookupKey]
      rw [if_neg (by omega)]
    · rw [if_neg he, lookupKey, lookupKey]
      by_cases he' : e.1 = k'
      · simp [he']
      · simp [he', ih]

theorem lookupKey_eraseKey_some (m : List (Nat × V)) (k k' : Nat) (v : V)
    (h : lookupKey (eraseKey m k') k = some v) : lookupKey m k = some v := by
  by_cases hk : k = k'
  · rw [hk, lookupKey_eraseKey_self] at h
    exact absurd h (by simp)
  · rwa [lookupKey_eraseKey_ne m k' k hk] at h

theorem lookupKey_insertKey_self (m : List (Nat × V)) (k : Nat) (v : V) :
    lookupKey (insertKey m k v) k = some v := by
  simp [insertKey, lookupKey]

theorem lookupKey_insertKey_ne (m : List (Nat × V)) (k k' : Nat) (v : V) (h : k' ≠ k) :
    lookupKey (insertKey m k v) k' = lookupKey m k' := by
  rw [insertKey, lookupKey]
  rw [if_neg (by omega), lookupKey_eraseKey_ne m k k' h]

theorem mem_of_lookupKey_eq_some (m : List (Nat × V)) (k : Nat) (v : V)
    (h : lookupKey m k = some v) : (k, v) ∈ m := by
  induction m with
  | nil => exact absurd h (by simp [lookupKey])
  | cons e es ih =>
    rw [lookupKey] at h
    by_cases he : e.1 = k
    · rw [if_pos he] at h
      have hev : e = (k, v) := by
        obtain ⟨a, w⟩ := e
        simp only [Option.some.injEq] at h
        simp only at he
        rw [he, h]
      rw [← hev]
      exact List.mem_cons_self _ _
    · rw [if_neg he] at h
      exact List.mem_cons_of_mem _ (ih h)

theorem lookupKey_eq_none_iff (m : List (Nat × V)) (k : Nat) :
    lookupKey m k = none ↔ k ∉ m.map Prod.fst := by
  induction m with
  | nil => simp [lookupKey]
  | cons e es ih =>
    rw [lookupKey]
    by_cases he : e.1 = k
    · simp [he]
    · simp [he, ih, Ne.symm he]

theorem lookupKey_isSome_of_mem (m : List (Nat × V)) (e : Nat × V) (h : e ∈ m) :
    (lookupKey m e.1).isSome := by
  cases hl : lookupKey m e.1 with
  | some v => rfl
  | none =>
    rw [lookupKey_eq_none_iff] at hl
    exact absurd (List.mem_map_of_mem Prod.fst h) hl

theorem nodupKeys_eraseKey (m : List (Nat × V)) (k : Nat) (h : nodupKeys m) :
    nodupKeys (eraseKey m k) := by
  exact List.Nodup.sublist (List.Sublist.map Prod.fst (List.filter_sublist m)) h

theorem nodupKeys_insertKey (m : List (Nat × V)) (k : Nat) (v : V) (h : nodupKeys m) :
    nodupKeys (insertKey m k v) := by
  rw [insertKey, nodupKeys, List.map_cons, List.nodup_cons]
  refine ⟨?_, nodupKeys_eraseKey m k h⟩
  intro hk
  obtain ⟨e, he, hk'⟩ := List.mem_map.mp hk
  exact (mem_eraseKey e m k).mp he |>.2 hk'

end MapLemmas

/-! ## `maxKeyEntry` lemmas -/

theorem maxKeyEntry_spec (m : List (Nat × Nat)) (h : m ≠ []) :
    ∃ e, maxKeyEntry m = some e ∧ e ∈ m ∧ ∀ e' ∈ m, e'.1 ≤ e.1 := by
  induction m with
  | nil => exact absurd rfl h
  | cons e es ih =>
    rcases es with _ | ⟨e2, es2⟩
    · exact ⟨e, by simp [maxKeyEntry], by simp, by simp⟩
    · obtain ⟨e0, hmax, hmem, hle⟩ := ih (by simp)
      by_cases hcmp : e.1 ≤ e0.1
      · refine ⟨e0, ?_, List.mem_cons_of_mem _ hmem, ?_⟩
        · rw [maxKeyEntry, hmax]
          simp [hcmp]
        · intro e' he'
          rcases List.mem_cons.mp he' with h1 | h2
          · rw [h1]; exact hcmp
          · exact hle e' h2
      · refine ⟨e, ?_, List.mem_cons_self _ _, ?_⟩
        · rw [maxKeyEntry, hmax]
          simp [hcmp]
        · intro e' he'
          rcases List.mem_cons.mp he' with h1 | h2
          · rw [h1]
          · exact le_of_lt (lt_of_le_of_lt (hle e' h2) (by omega))

theorem maxKeyEntry_eq_of_max (m : List (Nat × Nat)) (e0 : Nat × Nat)
    (hmem : e0 ∈ m) (hmax : ∀ e ∈ m, e.1 ≤ e0.1)
    (huniq : ∀ e ∈ m, e.1 = e0.1 → e = e0) :
    maxKeyEntry m = some e0 := by
  obtain ⟨e, hm, hin, hle⟩ := maxKeyEntry_spec m (List.ne_nil_of_mem hmem)
  rw [hm]
  have h1 : e.1 ≤ e0.1 := hmax e hin
  have h2 : e0.1 ≤ e.1 := hle e0 hmem
  rw [huniq e hin (by omega)]

/-! ## Fold lemmas for the insertion and removal loops -/

theorem foldl_insertBlock_pending (l : List ExecutedBlock) (s : InMemoryState) :
    (l.foldl insertBlock s).pending = s.pending := by
  induction l generalizing s with
  | nil => rfl
  | cons b t ih =>
    rw [List.foldl_cons, ih]
    rfl

theorem foldl_removeBlock_pending (l : List ExecutedBlock) (s : InMemoryState) :
    (l.foldl removeBlock s).pending = s.pending := by
  induction l generalizing s with
  | nil => rfl
  | cons b t ih =>
    rw [List.foldl_cons, ih]
    rfl

theorem insertBlock_blocks (s : InMemoryState) (b : ExecutedBlock) :
    (insertBlock s b).blocks =
      insertKey s.blocks b.block.hash
        (BlockState.with_parent b (lookupKey s.blocks b.block.parent_hash)) := rfl

theorem insertBlock_numbers (s : InMemoryState) (b : ExecutedBlock) :
    (insertBlock s b).numbers = insertKey s.numbers b.block.number b.block.hash := rfl

theorem foldl_insertBlock_blocks_lookup_of_not_mem (l : List ExecutedBlock)
    (s : InMemoryState) (k : Nat) (hk : k ∉ l.map (fun b => b.block.hash)) :
    lookupKey (l.foldl insertBlock s).blocks k = lookupKey s.blocks k := by
  induction l generalizing s with
  | nil => rfl
  | cons b t ih =>
    rw [List.map_cons, List.mem_cons] at hk
    push_neg at hk
    rw [List.foldl_cons, ih _ hk.2, insertBlock_blocks,
      lookupKey_insertKey_ne _ _ _ _ hk.1]

theorem foldl_insertBlock_numbers_lookup_of_not_mem (l : List ExecutedBlock)
    (s : InMemoryState) (n : Nat) (hn : n ∉ l.map (fun b => b.block.number)) :
    lookupKey (l.foldl insertBlock s).numbers n = lookupKey s.numbers n := by
  induction l generalizing s with
  | nil => rfl
  | cons b t ih =>
    rw [List.map_cons, List.mem_cons] at hn
    push_neg at hn
    rw [List.foldl_cons, ih _ hn.2, insertBlock_numbers,
      lookupKey_insertKey_ne _ _ _ _ hn.1]

theorem mem_foldl_insertBlock_blocks (l : List ExecutedBlock) (s : InMemoryState)
    (e : Nat × BlockState) (he : e ∈ (l.foldl insertBlock s).blocks) :
    e ∈ s.blocks ∨ ∃ b ∈ l, e.1 = b.block.hash ∧ e.2.blockField = b := by
  induction l generalizing s with
  | nil => exact Or.inl he
  | cons b t ih =>
    rw [List.foldl_cons] at he
    rcases ih (insertBlock s b) he with h1 | ⟨b', hb', h2⟩
    · rw [insertBlock_blocks] at h1
      rcases (mem_insertKey _ _ _ _).mp h1 with h2 | ⟨h3, _⟩
      · exact Or.inr ⟨b, List.mem_cons_self _ _, by rw [h2], by rw [h2]; rfl⟩
      · exact Or.inl h3
    · exact Or.inr ⟨b', List.mem_cons_of_mem _ hb', h2⟩

theorem mem_foldl_insertBlock_numbers (l : List ExecutedBlock) (s : InMemoryState)
    (e : Nat × Nat) (he : e ∈ (l.foldl insertBlock s).numbers) :
    e ∈ s.numbers ∨ ∃ b ∈ l, e = (b.block.number, b.block.hash) := by
  induction l generalizing s with
  | nil => exact Or.inl he
  | cons b t ih =>
    rw [List.foldl_cons] at he
    rcases ih (insertBlock s b) he with h1 | ⟨b', hb', h2⟩
    · rw [insertBlock_numbers] at h1
      rcases (mem_insertKey _ _ _ _).mp h1 with h2 | ⟨h3, _⟩
      · exact Or.inr ⟨b, List.mem_cons_self _ _, h2⟩
      · exact Or.inl h3
    · exact Or.inr ⟨b', List.mem_cons_of_mem _ hb', h2⟩

theorem removeBlock_blocks (s : InMemoryState) (b : ExecutedBlock) :
    (removeBlock s b).blocks = eraseKey s.blocks b.block.hash := rfl

theorem removeBlock_numbers (s : InMemoryState) (b : ExecutedBlock) :
    (removeBlock s b).numbers = eraseKey s.numbers b.block.number := rfl

theorem lookupKey_foldl_removeBlock_blocks (old : List ExecutedBlock)
    (s : InMemoryState) (k : Nat) :
    lookupKey (old.foldl removeBlock s).blocks k =
      if k ∈ old.map (fun b => b.block.hash) then none else lookupKey s.blocks k := by
  induction old generalizing s with
  | nil => simp
  | cons o t ih =>
    rw [List.foldl_cons, ih]
    by_cases ht : k ∈ t.map (fun b => b.block.hash)
    · simp [ht]
    · by_cases ho : k = o.block.hash
      · rw [if_neg ht, removeBlock_blocks, ho, lookupKey_eraseKey_self]
        simp [ho]
      · rw [if_neg ht, removeBlock_blocks, lookupKey_eraseKey_ne _ _ _ ho]
        simp [ht, ho]

theorem lookupKey_foldl_removeBlock_numbers (old : List ExecutedBlock)
    (s : InMemoryState) (n : Nat) :
    lookupKey (old.foldl removeBlock s).numbers n =
      if n ∈ old.map (fun b => b.block.number) then none else lookupKey s.numbers n := by
  induction old generalizing s with
  | nil => simp
  | cons o t ih =>
    rw [List.foldl_cons, ih]
    by_cases ht : n ∈ t.map (fun b => b.block.number)
    · simp [ht]
    · by_cases ho : n = o.block.number
      · rw [if_neg ht, removeBlock_numbers, ho, lookupKey_eraseKey_self]
        simp [ho]
      · rw [if_neg ht, removeBlock_numbers, lookupKey_eraseKey_ne _ _ _ ho]
        simp [ht, ho]

theorem lookupKey_foldl_removeBlock_blocks_some (old : List ExecutedBlock)
    (s : InMemoryState) (k : Nat) (v : BlockState)
    (h : lookupKey (old.foldl removeBlock s).blocks k = some v) :
    lookupKey s.blocks k = some v := by
  rw [lookupKey_foldl_removeBlock_blocks] at h
  by_cases hk : k ∈ old.map (fun b => b.block.hash)
  · rw [if_pos hk] at h
    exact absurd h (by simp)
  · rwa [if_neg hk] at h

theorem lookupKey_foldl_insertBlock_from_new (l : List ExecutedBlock) (s : InMemoryState)
    (k : Nat) (hk : k ∈ l.map (fun b => b.block.hash)) (bs : BlockState)
    (h : lookupKey (l.foldl insertBlock s).blocks k = some bs) :
    bs.blockField ∈ l ∧ bs.blockField.block.hash = k := by
  induction l generalizing s with
  | nil => simp at hk
  | cons b t ih =>
    rw [List.foldl_cons] at h
    by_cases ht : k ∈ t.map (fun b => b.block.hash)
    · obtain ⟨h1, h2⟩ := ih (insertBlock s b) ht h
      exact ⟨List.mem_cons_of_mem _ h1, h2⟩
    · have hkb : k = b.block.hash := by
        rw [List.map_cons, List.mem_cons] at hk
        tauto
      rw [foldl_insertBlock_blocks_lookup_of_not_mem t _ k ht, insertBlock_blocks, hkb,
        lookupKey_insertKey_self] at h
      obtain rfl := Option.some.inj h
      exact ⟨List.mem_cons_self _ _, hkb.symm⟩

theorem lookupKey_foldl_insertBlock_self (l : List ExecutedBlock) (s : InMemoryState)
    (hnodup : (l.map (fun b => b.block.hash)).Nodup) (b : ExecutedBlock) (hb : b ∈ l) :
    ∃ bs, lookupKey (l.foldl insertBlock s).blocks b.block.hash = some bs ∧
      bs.blockField = b := by
  induction l generalizing s with
  | nil => simp at hb
  | cons c t ih =>
    rw [List.map_cons, List.nodup_cons] at hnodup
    rw [List.foldl_cons]
    rcases List.mem_cons.mp hb with rfl | hbt
    · refine ⟨BlockState.with_parent b (lookupKey s.blocks b.block.parent_hash), ?_, rfl⟩
      rw [foldl_insertBlock_blocks_lookup_of_not_mem t _ _ hnodup.1, insertBlock_blocks,
        lookupKey_insertKey_self]
    · exact ih (insertBlock s c) hnodup.2 hbt

/-! ## Unfolding helpers for `update_chain` -/

theorem update_chain_reorg_blocks (s : InMemoryState) (new old : List ExecutedBlock) :
    (update_chain s (.Reorg new old)).blocks =
      (new.foldl insertBlock (old.foldl removeBlock s)).blocks := rfl

theorem update_chain_reorg_numbers (s : InMemoryState) (new old : List ExecutedBlock) :
    (update_chain s (.Reorg new old)).numbers =
      (new.foldl insertBlock (old.foldl removeBlock s)).numbers := rfl

theorem update_chain_commit_blocks (s : InMemoryState) (new : List ExecutedBlock) :
    (update_chain s (.Commit new)).blocks = (new.foldl insertBlock s).blocks := rfl

theorem update_chain_commit_numbers (s : InMemoryState) (new : List ExecutedBlock) :
    (update_chain s (.Commit new)).numbers = (new.foldl insertBlock s).numbers := rfl

/-! ## Concrete blocks used by the witnesses -/

/-- A concrete executed block for the witness instances. -/
def testBlock (hash number parent_hash : Nat) : ExecutedBlock :=
  { block := { hash := hash, number := number, parent_hash := parent_hash }
    senders := []
    execution_output := { receipts := { receipt_vec := [] }, bundle := 0 }
    hashed_state := 0
    trie := 0 }

/-! ## Claims -/

/-- C1: after `update_chain` applies `Reorg{new, old}` (old and new hash-disjoint,
the new hashes distinct, each transition block's recorded number matching any
entry tracked under its hash), every hash in `old` is unresolvable —
`state_by_hash` returns nothing and `state_by_number` of its former number no
longer returns that block — and every hash in `new` resolves by
`state_by_hash` to the newly inserted `BlockState`. -/
theorem reorg_evicts_old_and_resolves_new (s : InMemoryState)
    (new old : List ExecutedBlock)
    (hdisj : ∀ o ∈ old, ∀ b ∈ new, o.block.hash ≠ b.block.hash)
    (hnodup : (new.map (fun b => b.block.hash)).Nodup)
    (hnum : ∀ b ∈ old ++ new, ∀ bs, state_by_hash s b.block.hash = some bs →
      bs.number = b.block.number) :
    (∀ o ∈ old, state_by_hash (update_chain s (.Reorg new old)) o.block.hash = none) ∧
    (∀ o ∈ old, ∀ bs,
      state_by_number (update_chain s (.Reorg new old)) o.block.number = some bs →
      bs.hash ≠ o.block.hash) ∧
    (∀ b ∈ new, ∃ bs,
      state_by_hash (update_chain s (.Reorg new old)) b.block.hash = some bs ∧
      bs.blockField = b) := by
  refine ⟨?_, ?_, ?_⟩
  · intro o ho
    rw [state_by_hash, update_chain_reorg_blocks]
    have hnew : o.block.hash ∉ new.map (fun b => b.block.hash) := by
      intro hmem
      obtain ⟨b, hb, hbh⟩ := List.mem_map.mp hmem
      exact hdisj o ho b hb hbh.symm
    rw [foldl_insertBlock_blocks_lookup_of_not_mem _ _ _ hnew,
      lookupKey_foldl_removeBlock_blocks,
      if_pos (List.mem_map_of_mem (fun b => b.block.hash) ho)]
  · intro o ho bs hbs
    rw [state_by_number, update_chain_reorg_numbers, update_chain_reorg_blocks] at hbs
    cases hlk : lookupKey
        (new.foldl insertBlock (old.foldl removeBlock s)).numbers o.block.number with
    | none => rw [hlk] at hbs; exact absurd hbs (by simp)
    | some h0 =>
      rw [hlk] at hbs
      simp only [Option.some_bind] at hbs
      have hmem := mem_of_lookupKey_eq_some _ _ _ hlk
      rcases mem_foldl_insertBlock_numbers _ _ _ hmem with hold | ⟨b, hb, hbe⟩
      · have : lookupKey (old.foldl removeBlock s).numbers o.block.number = none := by
          rw [lookupKey_foldl_removeBlock_numbers,
            if_pos (List.mem_map_of_mem (fun b => b.block.number) ho)]
        rw [lookupKey_eq_none_iff] at this
        exact absurd (List.mem_map_of_mem Prod.fst hold) this
      · have hh0 : h0 = b.block.hash := congrArg Prod.snd hbe
        have hknew : h0 ∈ new.map (fun b => b.block.hash) := by
          rw [hh0]
          exact List.mem_map_of_mem _ hb
        obtain ⟨hin, hhash⟩ := lookupKey_foldl_insertBlock_from_new _ _ _ hknew _ hbs
        rw [BlockState.hash, hhash, hh0]
        exact fun hc => hdisj o ho b hb hc.symm
  · intro b hb
    rw [state_by_hash, update_chain_reorg_blocks]
    exact lookupKey_foldl_insertBlock_self _ _ hnodup b hb

/-- C1 witness: starting from a state tracking block #0 under hash 1, the reorg
replacing it with hash 2 makes hash 1 unresolvable, keeps its number from
resolving to it, and resolves hash 2 to the new state. -/
theorem reorg_evicts_old_and_resolves_new_witness :
    (∀ o ∈ [testBlock 1 0 0],
      state_by_hash
        (update_chain
          ⟨[(1, BlockState.new (testBlock 1 0 0))], [(0, 1)], none⟩
          (.Reorg [testBlock 2 0 0] [testBlock 1 0 0])) o.block.hash = none) ∧
    (∀ o ∈ [testBlock 1 0 0], ∀ bs,
      state_by_number
        (update_chain
          ⟨[(1, BlockState.new (testBlock 1 0 0))], [(0, 1)], none⟩
          (.Reorg [testBlock 2 0 0] [testBlock 1 0 0])) o.block.number = some bs →
      bs.hash ≠ o.block.hash) ∧
    (∀ b ∈ [testBlock 2 0 0], ∃ bs,
      state_by_hash
        (update_chain
          ⟨[(1, BlockState.new (testBlock 1 0 0))], [(0, 1)], none⟩
          (.Reorg [testBlock 2 0 0] [testBlock 1 0 0])) b.block.hash = some bs ∧
      bs.blockField = b) := by
  refine reorg_evicts_old_and_resolves_new _ _ _ ?_ ?_ ?_
  · decide
  · decide
  · intro b hb bs hbs
    have hb2 : b = testBlock 1 0 0 ∨ b = testBlock 2 0 0 := by simpa using hb
    rcases hb2 with rfl | rfl
    · have he : state_by_hash ⟨[(1, BlockState.new (testBlock 1 0 0))], [(0, 1)], none⟩
          (testBlock 1 0 0).block.hash = some (BlockState.new (testBlock 1 0 0)) := rfl
      rw [he] at hbs
      rw [← Option.some.inj hbs]
      rfl
    · have he : state_by_hash ⟨[(1, BlockState.new (testBlock 1 0 0))], [(0, 1)], none⟩
          (testBlock 2 0 0).block.hash = none := rfl
      rw [he] at hbs
      exact Option.noConfusion hbs

/-- C3: a `Commit` is exactly a `Reorg` with an empty `old` list — for every
starting state and block list, `update_chain` produces identical hash-map,
number-map and pending contents on the two transitions. -/
theorem commit_is_reorg_with_empty_old (s : InMemoryState) (new : List ExecutedBlock) :
    (update_chain s (.Commit new)).blocks = (update_chain s (.Reorg new [])).blocks ∧
    (update_chain s (.Commit new)).numbers = (update_chain s (.Reorg new [])).numbers ∧
    (update_chain s (.Commit new)).pending = (update_chain s (.Reorg new [])).pending :=
  ⟨rfl, rfl, rfl⟩

/-- C7: whenever a pending block is set, `pending_state` returns a fresh root
`BlockState` wrapping a copy of the pending block with the parent link dropped;
any returned value has no parent and an empty parent chain, so successive reads
share no parent lineage with each other or with any canonical state. -/
theorem pending_state_returns_fresh_root_copy (s : InMemoryState) (st : BlockState)
    (h : s.pending = some st) :
    pending_state s = some (BlockState.new st.blockField) ∧
    ∀ bs, pending_state s = some bs → bs.parent = none ∧ bs.parent_state_chain = [] := by
  have h1 : pending_state s = some (BlockState.new st.blockField) := by
    rw [pending_state, h]
    rfl
  refine ⟨h1, ?_⟩
  intro bs hbs
  rw [h1] at hbs
  obtain rfl := Option.some.inj hbs
  exact ⟨rfl, rfl⟩

/-- C7 witness: with a pending state that itself has a parent link, reading it
yields the parentless copy. -/
theorem pending_state_returns_fresh_root_copy_witness :
    pending_state
        ⟨[], [],
          some (BlockState.mk (testBlock 2 2 1) (some (BlockState.new (testBlock 1 1 0))))⟩ =
      some (BlockState.new (testBlock 2 2 1)) ∧
    ∀ bs,
      pending_state
          ⟨[], [],
            some (BlockState.mk (testBlock 2 2 1) (some (BlockState.new (testBlock 1 1 0))))⟩ =
        some bs → bs.parent = none ∧ bs.parent_state_chain = [] :=
  pending_state_returns_fresh_root_copy
    ⟨[], [], some (BlockState.mk (testBlock 2 2 1) (some (BlockState.new (testBlock 1 1 0))))⟩
    (BlockState.mk (testBlock 2 2 1) (some (BlockState.new (testBlock 1 1 0)))) rfl

/-- C8: for non-empty `new` (and non-empty `old` on `Reorg`),
`to_chain_notification` builds one `Chain` per side from all blocks'
(block, senders) pairs and attaches only the last block's execution outcome —
not a merge of all outcomes. -/
theorem to_chain_notification_attaches_last_outcome :
    (∀ (new : List ExecutedBlock) (lastNew : ExecutedBlock),
      new.getLast? = some lastNew →
      to_chain_notification (.Commit new) =
        some (.Commit
          { blocks := new.map ExecutedBlock.sealed_block_with_senders
            execution_outcome := lastNew.execution_output })) ∧
    (∀ (new old : List ExecutedBlock) (lastNew lastOld : ExecutedBlock),
      new.getLast? = some lastNew → old.getLast? = some lastOld →
      to_chain_notification (.Reorg new old) =
        some (.Reorg
          { blocks := new.map ExecutedBlock.sealed_block_with_senders
            execution_outcome := lastNew.execution_output }
          { blocks := old.map ExecutedBlock.sealed_block_with_senders
            execution_outcome := lastOld.execution_output })) := by
  constructor
  · intro new lastNew hlast
    rw [to_chain_notification, hlast]
    rfl
  · intro new old lastNew lastOld hn ho
    rw [to_chain_notification, hn, ho]

/-- C8 witness: a two-block commit and a two-block/one-block reorg carry
exactly the last block's outcome on each side. -/
theorem to_chain_notification_attaches_last_outcome_witness :
    to_chain_notification (.Commit [testBlock 1 1 0, testBlock 2 2 1]) =
      some (.Commit
        { blocks := [testBlock 1 1 0, testBlock 2 2 1].map
            ExecutedBlock.sealed_block_with_senders
          execution_outcome := (testBlock 2 2 1).execution_output }) ∧
    to_chain_notification (.Reorg [testBlock 3 1 0, testBlock 4 2 3] [testBlock 1 1 0]) =
      some (.Reorg
        { blocks := [testBlock 3 1 0, testBlock 4 2 3].map
            ExecutedBlock.sealed_block_with_senders
          execution_outcome := (testBlock 4 2 3).execution_output }
        { blocks := [testBlock 1 1 0].map ExecutedBlock.sealed_block_with_senders
          execution_outcome := (testBlock 1 1 0).execution_output }) :=
  ⟨to_chain_notification_attaches_last_outcome.1 _ _ rfl,
    to_chain_notification_attaches_last_outcome.2 _ _ _ _ rfl rfl⟩

/-- C9: the debug assertion in `executed_block_receipts` fires exactly when the
outcome carries more than one block's worth of receipts, and in every case the
function degrades gracefully: it returns the non-`None` receipts of the first
receipt list, or an empty vector when no receipt list is attached — never an
error. -/
theorem executed_block_receipts_first_list_best_effort (s : BlockState) :
    (s.receipts_assert_ok = false ↔ 1 < s.receipts.receipt_vec.length) ∧
    (s.receipts.receipt_vec = [] → s.executed_block_receipts = []) ∧
    (∀ l rest, s.receipts.receipt_vec = l :: rest →
      s.executed_block_receipts = l.filterMap id) := by
  refine ⟨?_, ?_, ?_⟩
  · rw [BlockState.receipts_assert_ok, decide_eq_false_iff_not]
    omega
  · intro h
    rw [BlockState.executed_block_receipts, h]
    rfl
  · intro l rest h
    rw [BlockState.executed_block_receipts, h]
    rfl

/-- A block state whose outcome carries two receipt lists, used by the C9
witness. -/
def twoListReceiptsState : BlockState :=
  BlockState.new
    { block := { hash := 1, number := 1, parent_hash := 0 }
      senders := []
      execution_output :=
        { receipts := { receipt_vec := [[some 1, none, some 2], [some 3]] }, bundle := 0 }
      hashed_state := 0
      trie := 0 }

/-- C9 witness: an outcome carrying two receipt lists trips the assertion
condition yet still yields the first list's non-`None` receipts. -/
theorem executed_block_receipts_first_list_best_effort_witness :
    twoListReceiptsState.receipts_assert_ok = false ∧
    twoListReceiptsState.executed_block_receipts = [1, 2] := by
  constructor
  · exact (executed_block_receipts_first_list_best_effort twoListReceiptsState).1.mpr (by decide)
  · rw [(executed_block_receipts_first_list_best_effort twoListReceiptsState).2.2
      [some 1, none, some 2] [[some 3]] rfl]
    rfl

/-- C10: `remove_persisted_blocks` leaves the pending slot untouched for every
height and starting state, while `update_chain` always clears it. -/
theorem remove_persisted_blocks_preserves_pending_slot (s : InMemoryState) (h : Nat) :
    (remove_persisted_blocks s h).pending = s.pending ∧
    ∀ c : NewCanonicalChain, (update_chain s c).pending = none := by
  constructor
  · exact foldl_insertBlock_pending _ _
  · intro c
    cases c <;> rfl

/-! ## Chain-walk lemmas (C5) -/

/-- Parent links connect consecutive block numbers all the way down the
tracked ancestry. -/
def consecLinks : BlockState → Bool
  | .mk _ none => true
  | .mk b (some p) => (b.block.number == p.blockField.block.number + 1) && consecLinks p

theorem chain_getLast (bs : BlockState) : bs.chain.getLast? = some bs := by
  rw [BlockState.chain]
  exact List.getLast?_concat _

theorem chain_cons_parent (b : ExecutedBlock) (p : BlockState) :
    (BlockState.mk b (some p)).chain = p.chain ++ [BlockState.mk b (some p)] := by
  rw [BlockState.chain, BlockState.parent_state_chain, BlockState.chain]

theorem chain_consecutive : ∀ bs : BlockState, consecLinks bs = true →
    List.Chain' (fun a b : BlockState => b.number = a.number + 1) bs.chain
  | .mk b none, _ => by
    rw [BlockState.chain, BlockState.parent_state_chain]
    exact List.chain'_singleton _
  | .mk b (some p), h => by
    have hc : b.block.number = p.blockField.block.number + 1 ∧ consecLinks p = true := by
      rw [consecLinks, Bool.and_eq_true, beq_iff_eq] at h
      exact h
    have ih := chain_consecutive p hc.2
    rw [chain_cons_parent, List.chain'_append]
    refine ⟨ih, List.chain'_singleton _, ?_⟩
    intro x hx y hy
    rw [chain_getLast, Option.mem_def, Option.some.injEq] at hx
    simp only [List.head?_cons, Option.mem_def, Option.some.injEq] at hy
    rw [← hx, ← hy]
    exact hc.1

/-- C5: for every `BlockState` whose parent links connect consecutive block
numbers, `chain()` equals `parent_state_chain()` followed by self, ends in the
state itself, and lists blocks in strictly increasing number order with no
gaps; in particular committing B1→B2→B3 yields `chain() = [B1, B2, B3]` on
B3's state and `[B1]` on B1's state. -/
theorem chain_increasing_ends_in_self :
    (∀ bs : BlockState, consecLinks bs = true →
      bs.chain = bs.parent_state_chain ++ [bs] ∧
      bs.chain.getLast? = some bs ∧
      List.Chain' (fun a b : BlockState => b.number = a.number + 1) bs.chain) ∧
    (state_by_hash (update_chain ⟨[], [], none⟩
        (.Commit [testBlock 1 1 0, testBlock 2 2 1, testBlock 3 3 2])) 3).map
        (fun bs => bs.chain.map BlockState.blockField) =
      some [testBlock 1 1 0, testBlock 2 2 1, testBlock 3 3 2] ∧
    (state_by_hash (update_chain ⟨[], [], none⟩
        (.Commit [testBlock 1 1 0, testBlock 2 2 1, testBlock 3 3 2])) 1).map
        (fun bs => bs.chain.map BlockState.blockField) =
      some [testBlock 1 1 0] := by
  refine ⟨?_, by decide, by decide⟩
  intro bs h
  exact ⟨rfl, chain_getLast bs, chain_consecutive bs h⟩

/-- C5 witness: a concrete three-link state with consecutive numbers. -/
theorem chain_increasing_ends_in_self_witness :
    (BlockState.mk (testBlock 3 3 2) (some (BlockState.mk (testBlock 2 2 1)
        (some (BlockState.new (testBlock 1 1 0)))))).chain =
      (BlockState.mk (testBlock 3 3 2) (some (BlockState.mk (testBlock 2 2 1)
        (some (BlockState.new (testBlock 1 1 0)))))).parent_state_chain ++
      [BlockState.mk (testBlock 3 3 2) (some (BlockState.mk (testBlock 2 2 1)
        (some (BlockState.new (testBlock 1 1 0)))))] ∧
    (BlockState.mk (testBlock 3 3 2) (some (BlockState.mk (testBlock 2 2 1)
        (some (BlockState.new (testBlock 1 1 0)))))).chain.getLast? =
      some (BlockState.mk (testBlock 3 3 2) (some (BlockState.mk (testBlock 2 2 1)
        (some (BlockState.new (testBlock 1 1 0)))))) ∧
    List.Chain' (fun a b : BlockState => b.number = a.number + 1)
      (BlockState.mk (testBlock 3 3 2) (some (BlockState.mk (testBlock 2 2 1)
        (some (BlockState.new (testBlock 1 1 0)))))).chain :=
  chain_increasing_ends_in_self.1 _ (by decide)

/-! ## Head-state lemmas (C6) -/

/-- A sequence of `Commit` transitions applied in order. -/
def applyCommits (s : InMemoryState) (cs : List (List ExecutedBlock)) : InMemoryState :=
  cs.foldl (fun acc new => update_chain acc (.Commit new)) s

/-- A `Commit` transition extending the current head: non-empty, ordered
oldest-first with strictly increasing numbers, every block above every
currently tracked number. -/
def CommitExtends (s : InMemoryState) (new : List ExecutedBlock) : Prop :=
  new ≠ [] ∧
  (∀ b ∈ new, ∀ e ∈ s.numbers, e.1 < b.block.number) ∧
  List.Chain' (fun a b : ExecutedBlock => a.block.number < b.block.number) new

/-- Every transition of the sequence extends the state produced by the
previous ones. -/
def ExtendsSeq : InMemoryState → List (List ExecutedBlock) → Prop
  | _, [] => True
  | s, new :: rest => CommitExtends s new ∧ ExtendsSeq (update_chain s (.Commit new)) rest

theorem chain_lt_le_getLast (l : List ExecutedBlock)
    (hc : List.Chain' (fun a b : ExecutedBlock => a.block.number < b.block.number) l)
    (tip : ExecutedBlock) (htip : l.getLast? = some tip) :
    ∀ b ∈ l, b.block.number ≤ tip.block.number := by
  induction l with
  | nil => exact absurd htip (by simp)
  | cons a t ih =>
    intro b hb
    rcases t with _ | ⟨c, t'⟩
    · obtain rfl : a = tip := by simpa using htip
      obtain rfl : b = a := by simpa using hb
      exact le_refl _
    · rw [List.getLast?_cons_cons] at htip
      rw [List.chain'_cons] at hc
      rcases List.mem_cons.mp hb with rfl | hbt
      · exact le_trans (le_of_lt hc.1)
          (ih hc.2 htip c (List.mem_cons_self _ _))
      · exact ih hc.2 htip b hbt

theorem head_state_commit_unfold (s : InMemoryState) (new : List ExecutedBlock) :
    head_state (update_chain s (.Commit new)) =
      (maxKeyEntry (new.foldl insertBlock s).numbers).bind
        (fun e => lookupKey (new.foldl insertBlock s).blocks e.2) := rfl

theorem head_state_after_commit (s : InMemoryState) (new : List ExecutedBlock)
    (tip : ExecutedBlock) (htip : new.getLast? = some tip)
    (hgt : ∀ b ∈ new, ∀ e ∈ s.numbers, e.1 < b.block.number)
    (hasc : List.Chain' (fun a b : ExecutedBlock => a.block.number < b.block.number) new) :
    ∃ bs, head_state (update_chain s (.Commit new)) = some bs ∧
      bs.number = tip.block.number ∧ bs.blockField = tip := by
  have hne : new ≠ [] := by
    intro h
    rw [h] at htip
    exact Option.noConfusion htip
  have hdecomp : new.dropLast ++ [tip] = new := List.dropLast_append_getLast? tip htip
  have htipmem : tip ∈ new := by
    rw [← hdecomp]
    exact List.mem_append_right _ (List.mem_cons_self _ _)
  rw [head_state_commit_unfold, ← hdecomp, List.foldl_append]
  set s1 := new.dropLast.foldl insertBlock s with hs1
  rw [List.foldl_cons, List.foldl_nil]
  have hnum : (insertBlock s1 tip).numbers =
      insertKey s1.numbers tip.block.number tip.block.hash := rfl
  have hblk : (insertBlock s1 tip).blocks =
      insertKey s1.blocks tip.block.hash
        (BlockState.with_parent tip (lookupKey s1.blocks tip.block.parent_hash)) := rfl
  have hmax : maxKeyEntry (insertBlock s1 tip).numbers =
      some (tip.block.number, tip.block.hash) := by
    rw [hnum]
    refine maxKeyEntry_eq_of_max _ _ ((mem_insertKey _ _ _ _).mpr (Or.inl rfl)) ?_ ?_
    · intro e he
      rcases (mem_insertKey _ _ _ _).mp he with rfl | ⟨hmem, hne'⟩
      · exact le_refl _
      · rcases mem_foldl_insertBlock_numbers _ _ _ hmem with hs | ⟨b, hb, rfl⟩
        · exact le_of_lt (hgt tip htipmem e hs)
        · have hbnew : b ∈ new := by
            rw [← hdecomp]
            exact List.mem_append_left _ hb
          exact chain_lt_le_getLast new hasc tip htip b hbnew
    · intro e he h1
      rcases (mem_insertKey _ _ _ _).mp he with rfl | ⟨_, hne'⟩
      · rfl
      · exact absurd h1 hne'
  rw [hmax, Option.some_bind, hblk, lookupKey_insertKey_self]
  exact ⟨_, rfl, rfl, rfl⟩

/-- C6: `head_state` returns a tracked block whose number is the maximum over
the number map; and along every sequence of `Commit` transitions each
extending the current head, `head_state().number()` afterwards equals the
number of the most recently committed transition's tip. -/
theorem head_state_max_and_tracks_commit_tip :
    (∀ s : InMemoryState,
      (∀ e ∈ s.numbers, ∃ bs, lookupKey s.blocks e.2 = some bs ∧ bs.number = e.1) →
      s.numbers ≠ [] →
      ∃ bs, head_state s = some bs ∧ (∀ e ∈ s.numbers, e.1 ≤ bs.number) ∧
        ∃ e ∈ s.numbers, e.1 = bs.number ∧ lookupKey s.blocks e.2 = some bs) ∧
    (∀ (s : InMemoryState) (cs : List (List ExecutedBlock))
      (lastCommit : List ExecutedBlock) (tip : ExecutedBlock),
      ExtendsSeq s cs → cs.getLast? = some lastCommit → lastCommit.getLast? = some tip →
      ∃ bs, head_state (applyCommits s cs) = some bs ∧ bs.number = tip.block.number) := by
  constructor
  · intro s hI hne
    obtain ⟨e0, hmax, hmem, hle⟩ := maxKeyEntry_spec s.numbers hne
    obtain ⟨bs, hbs, hnum⟩ := hI e0 hmem
    refine ⟨bs, ?_, ?_, e0, hmem, hnum.symm, hbs⟩
    · rw [head_state, hmax, Option.some_bind, hbs]
    · intro e he
      rw [hnum]
      exact hle e he
  · intro s cs
    induction cs generalizing s with
    | nil =>
      intro lastCommit tip _ hlast _
      exact absurd hlast (by simp)
    | cons c rest ih =>
      intro lastCommit tip hext hlast htip
      rcases rest with _ | ⟨c2, rest'⟩
      · obtain rfl : c = lastCommit := by simpa using hlast
        obtain ⟨bs, h1, h2, _⟩ :=
          head_state_after_commit s c tip htip hext.1.2.1 hext.1.2.2
        exact ⟨bs, h1, h2⟩
      · rw [List.getLast?_cons_cons] at hlast
        exact ih (update_chain s (.Commit c)) lastCommit tip hext.2 hlast htip

/-- C6 witness: a maximal-number head on a one-entry state, and the head after
the commit sequence [[B1], [B2, B3]] has the tip number 3. -/
theorem head_state_max_and_tracks_commit_tip_witness :
    (∃ bs, head_state ⟨[(5, BlockState.new (testBlock 5 7 0))], [(7, 5)], none⟩ = some bs ∧
      (∀ e ∈ [((7 : Nat), (5 : Nat))], e.1 ≤ bs.number) ∧
      ∃ e ∈ [((7 : Nat), (5 : Nat))], e.1 = bs.number ∧
        lookupKey [(5, BlockState.new (testBlock 5 7 0))] e.2 = some bs) ∧
    (∃ bs, head_state (applyCommits ⟨[], [], none⟩
        [[testBlock 1 1 0], [testBlock 2 2 1, testBlock 3 3 2]]) = some bs ∧
      bs.number = (testBlock 3 3 2).block.number) := by
  constructor
  · exact head_state_max_and_tracks_commit_tip.1
      ⟨[(5, BlockState.new (testBlock 5 7 0))], [(7, 5)], none⟩
      (by
        intro e he
        obtain rfl : e = (7, 5) := by simpa using he
        exact ⟨BlockState.new (testBlock 5 7 0), rfl, rfl⟩)
      (List.cons_ne_nil _ _)
  · exact head_state_max_and_tracks_commit_tip.2 ⟨[], [], none⟩
      [[testBlock 1 1 0], [testBlock 2 2 1, testBlock 3 3 2]]
      [testBlock 2 2 1, testBlock 3 3 2] (testBlock 3 3 2)
      ⟨⟨List.cons_ne_nil _ _, by decide, List.chain'_singleton _⟩,
        ⟨List.cons_ne_nil _ _, by decide,
          List.chain'_cons.mpr ⟨by decide, List.chain'_singleton _⟩⟩, trivial⟩
      rfl rfl

/-! ## Eviction and invariant lemmas (C2, C4) -/

theorem eraseKey_eq_self {V : Type} (m : List (Nat × V)) (k : Nat)
    (h : k ∉ m.map Prod.fst) : eraseKey m k = m := by
  rw [eraseKey, List.filter_eq_self]
  intro e he
  rw [decide_eq_true_eq]
  intro hek
  exact h (hek ▸ List.mem_map_of_mem Prod.fst he)

theorem insertBlock_blocks_fresh (s : InMemoryState) (b : ExecutedBlock)
    (h : lookupKey s.blocks b.block.hash = none) :
    (insertBlock s b).blocks =
      (b.block.hash, BlockState.with_parent b (lookupKey s.blocks b.block.parent_hash))
        :: s.blocks := by
  rw [insertBlock_blocks, insertKey,
    eraseKey_eq_self _ _ ((lookupKey_eq_none_iff _ _).mp h)]

theorem mem_foldl_removeBlock_numbers (old : List ExecutedBlock) (s : InMemoryState)
    (e : Nat × Nat) :
    e ∈ (old.foldl removeBlock s).numbers ↔
      e ∈ s.numbers ∧ e.1 ∉ old.map (fun b => b.block.number) := by
  induction old generalizing s with
  | nil => simp
  | cons o t ih =>
    rw [List.foldl_cons, ih, removeBlock_numbers, mem_eraseKey]
    simp only [List.map_cons, List.mem_cons, not_or]
    tauto

theorem foldl_removeBlock_blocks_sublist (old : List ExecutedBlock) (s : InMemoryState) :
    (old.foldl removeBlock s).blocks.Sublist s.blocks := by
  induction old generalizing s with
  | nil => exact List.Sublist.refl _
  | cons o t ih => exact (ih (removeBlock s o)).trans (List.filter_sublist _)

theorem foldl_removeBlock_wf (old : List ExecutedBlock) (s : InMemoryState)
    (hwf : ∀ e ∈ s.blocks, e.1 = e.2.hash) (hnk : nodupKeys s.blocks) :
    (∀ e ∈ (old.foldl removeBlock s).blocks, e.1 = e.2.hash) ∧
    nodupKeys (old.foldl removeBlock s).blocks := by
  constructor
  · intro e he
    exact hwf e ((foldl_removeBlock_blocks_sublist old s).subset he)
  · exact List.Nodup.sublist
      (List.Sublist.map Prod.fst (foldl_removeBlock_blocks_sublist old s)) hnk

theorem foldl_insertBlock_wf (l : List ExecutedBlock) (s : InMemoryState)
    (hwf : ∀ e ∈ s.blocks, e.1 = e.2.hash) (hnk : nodupKeys s.blocks) :
    (∀ e ∈ (l.foldl insertBlock s).blocks, e.1 = e.2.hash) ∧
    nodupKeys (l.foldl insertBlock s).blocks := by
  induction l generalizing s with
  | nil => exact ⟨hwf, hnk⟩
  | cons b t ih =>
    rw [List.foldl_cons]
    refine ih (insertBlock s b) ?_ ?_
    · intro e he
      rw [insertBlock_blocks] at he
      rcases (mem_insertKey _ _ _ _).mp he with rfl | ⟨hmem, _⟩
      · rfl
      · exact hwf e hmem
    · rw [insertBlock_blocks]
      exact nodupKeys_insertKey _ _ _ hnk

theorem foldl_removeBlock_I1 (old : List ExecutedBlock) (s : InMemoryState)
    (hI : ∀ e ∈ s.numbers, ∃ bs, lookupKey s.blocks e.2 = some bs ∧ bs.number = e.1)
    (hold : ∀ o ∈ old, ∀ bs, lookupKey s.blocks o.block.hash = some bs →
      bs.number = o.block.number) :
    ∀ e ∈ (old.foldl removeBlock s).numbers,
      ∃ bs, lookupKey (old.foldl removeBlock s).blocks e.2 = some bs ∧ bs.number = e.1 := by
  intro e he
  have hmem := (mem_foldl_removeBlock_numbers old s e).mp he
  obtain ⟨bs, hbs, hnum⟩ := hI e hmem.1
  refine ⟨bs, ?_, hnum⟩
  rw [lookupKey_foldl_removeBlock_blocks]
  by_cases hk : e.2 ∈ old.map (fun b => b.block.hash)
  · obtain ⟨o, ho, hoh⟩ := List.mem_map.mp hk
    have heq := hold o ho bs (hoh.symm ▸ hbs)
    refine absurd (List.mem_map.mpr ⟨o, ho, ?_⟩) hmem.2
    rw [← heq]
    exact hnum
  · rw [if_neg hk]
    exact hbs

theorem foldl_insertBlock_I1 (l : List ExecutedBlock) (s : InMemoryState)
    (hI : ∀ e ∈ s.numbers, ∃ bs, lookupKey s.blocks e.2 = some bs ∧ bs.number = e.1)
    (hnodup : (l.map (fun b => b.block.hash)).Nodup)
    (hcons : ∀ b ∈ l, ∀ bs, lookupKey s.blocks b.block.hash = some bs →
      bs.number = b.block.number) :
    ∀ e ∈ (l.foldl insertBlock s).numbers,
      ∃ bs, lookupKey (l.foldl insertBlock s).blocks e.2 = some bs ∧ bs.number = e.1 := by
  induction l generalizing s with
  | nil => exact hI
  | cons b t ih =>
    rw [List.map_cons, List.nodup_cons] at hnodup
    rw [List.foldl_cons]
    refine ih (insertBlock s b) ?_ hnodup.2 ?_
    · intro e he
      rw [insertBlock_numbers] at he
      rcases (mem_insertKey _ _ _ _).mp he with rfl | ⟨hmem, hne⟩
      · refine ⟨BlockState.with_parent b (lookupKey s.blocks b.block.parent_hash), ?_, rfl⟩
        rw [insertBlock_blocks]
        exact lookupKey_insertKey_self _ _ _
      · obtain ⟨bs, hbs, hnum⟩ := hI e hmem
        refine ⟨bs, ?_, hnum⟩
        rw [insertBlock_blocks]
        by_cases hk : e.2 = b.block.hash
        · have heq := hcons b (List.mem_cons_self _ _) bs (hk ▸ hbs)
          refine absurd ?_ hne
          rw [← hnum]
          exact heq
        · rw [lookupKey_insertKey_ne _ _ _ _ hk]
          exact hbs
    · intro b' hb' bs hbs
      rw [insertBlock_blocks] at hbs
      have hne : b'.block.hash ≠ b.block.hash := by
        intro hc
        exact hnodup.1 (hc ▸ List.mem_map_of_mem (fun x => x.block.hash) hb')
      rw [lookupKey_insertKey_ne _ _ _ _ hne] at hbs
      exact hcons b' (List.mem_cons_of_mem _ hb') bs hbs

theorem foldl_insertBlock_fresh_spec (l : List ExecutedBlock) (s : InMemoryState)
    (hnodup : (l.map (fun b => b.block.hash)).Nodup)
    (hfresh : ∀ b ∈ l, lookupKey s.blocks b.block.hash = none)
    (hwf : ∀ e ∈ s.blocks, e.1 = e.2.hash)
    (hchain : ∀ e ∈ s.blocks, ∀ p ∈ e.2.parent_state_chain,
      lookupKey s.blocks p.hash = some p) :
    (∀ e ∈ (l.foldl insertBlock s).blocks, e.1 = e.2.hash) ∧
    (∀ e ∈ (l.foldl insertBlock s).blocks, ∀ p ∈ e.2.parent_state_chain,
      lookupKey (l.foldl insertBlock s).blocks p.hash = some p) := by
  induction l generalizing s with
  | nil => exact ⟨hwf, hchain⟩
  | cons b t ih =>
    rw [List.map_cons, List.nodup_cons] at hnodup
    have hfb : lookupKey s.blocks b.block.hash = none := hfresh b (List.mem_cons_self _ _)
    have hcons := insertBlock_blocks_fresh s b hfb
    have hlk : ∀ k, lookupKey (insertBlock s b).blocks k =
        if b.block.hash = k then
          some (BlockState.with_parent b (lookupKey s.blocks b.block.parent_hash))
        else lookupKey s.blocks k := by
      intro k
      rw [hcons]
      rfl
    have hpres : ∀ k v, lookupKey s.blocks k = some v →
        lookupKey (insertBlock s b).blocks k = some v := by
      intro k v hv
      rw [hlk]
      by_cases hk : b.block.hash = k
      · rw [← hk] at hv
        rw [hfb] at hv
        exact Option.noConfusion hv
      · rw [if_neg hk]
        exact hv
    have hwf2 : ∀ e ∈ (insertBlock s b).blocks, e.1 = e.2.hash := by
      intro e he
      rw [hcons] at he
      rcases List.mem_cons.mp he with rfl | hmem
      · rfl
      · exact hwf e hmem
    have hchain2 : ∀ e ∈ (insertBlock s b).blocks, ∀ p ∈ e.2.parent_state_chain,
        lookupKey (insertBlock s b).blocks p.hash = some p := by
      intro e he p hp
      rw [hcons] at he
      rcases List.mem_cons.mp he with rfl | hmem
      · cases hpar : lookupKey s.blocks b.block.parent_hash with
        | none =>
          rw [hpar] at hp
          simp [BlockState.with_parent, BlockState.parent_state_chain] at hp
        | some pst =>
          have hpmem : (b.block.parent_hash, pst) ∈ s.blocks :=
            mem_of_lookupKey_eq_some _ _ _ hpar
          have hph : b.block.parent_hash = pst.hash := hwf _ hpmem
          rw [hpar, BlockState.with_parent, BlockState.parent_state_chain] at hp
          rcases List.mem_append.mp hp with hin | hlast
          · exact hpres _ _ (hchain _ hpmem p hin)
          · obtain rfl : p = pst := by simpa using hlast
            exact hpres _ _ (hph ▸ hpar)
      · exact hpres _ _ (hchain e hmem p hp)
    have hfresh2 : ∀ b' ∈ t, lookupKey (insertBlock s b).blocks b'.block.hash = none := by
      intro b' hb'
      rw [hlk]
      have hne : b.block.hash ≠ b'.block.hash := by
        intro hc
        exact hnodup.1 (hc ▸ List.mem_map_of_mem (fun x => x.block.hash) hb')
      rw [if_neg hne]
      exact hfresh b' (List.mem_cons_of_mem _ hb')
    rw [List.foldl_cons]
    exact ih (insertBlock s b) hnodup.2 hfresh2 hwf2 hchain2

/-- The survivors of `remove_persisted_blocks`, filtered and sorted ascending
by number, exactly as the Rust code computes them before re-insertion. -/
def survivorsSorted (s : InMemoryState) (h : Nat) : List ExecutedBlock :=
  List.insertionSort (fun a b : ExecutedBlock => a.block.number ≤ b.block.number)
    ((s.blocks.map (fun e => e.2.blockField)).filter (fun b => decide (h < b.block.number)))

theorem remove_persisted_unfold (s : InMemoryState) (h : Nat) :
    remove_persisted_blocks s h =
      (survivorsSorted s h).foldl insertBlock ⟨[], [], s.pending⟩ := rfl

theorem survivorsSorted_facts (s : InMemoryState) (h : Nat)
    (hwf : ∀ e ∈ s.blocks, e.1 = e.2.hash) (hnk : nodupKeys s.blocks) :
    ((survivorsSorted s h).map (fun b => b.block.hash)).Nodup ∧
    (∀ b ∈ survivorsSorted s h, h < b.block.number) ∧
    (∀ b ∈ survivorsSorted s h, b.block.hash ∈ s.blocks.map Prod.fst) ∧
    (∀ e ∈ s.blocks, h < e.2.number → e.2.blockField ∈ survivorsSorted s h) := by
  have hdrain : (s.blocks.map (fun e => e.2.blockField)).map (fun b => b.block.hash) =
      s.blocks.map Prod.fst := by
    rw [List.map_map]
    exact List.map_congr_left (fun e he => (hwf e he).symm)
  have hfilter := List.filter_sublist (p := fun b => decide (h < b.block.number))
    (s.blocks.map (fun e => e.2.blockField))
  have hfilterNodup :
      (((s.blocks.map (fun e => e.2.blockField)).filter
        (fun b => decide (h < b.block.number))).map (fun b => b.block.hash)).Nodup := by
    refine List.Nodup.sublist (List.Sublist.map (fun b => b.block.hash) hfilter) ?_
    rw [hdrain]
    exact hnk
  have hperm : ((survivorsSorted s h).map (fun b => b.block.hash)).Perm
      (((s.blocks.map (fun e => e.2.blockField)).filter
        (fun b => decide (h < b.block.number))).map (fun b => b.block.hash)) :=
    (List.perm_insertionSort _ _).map _
  refine ⟨hperm.nodup_iff.mpr hfilterNodup, ?_, ?_, ?_⟩
  · intro b hb
    rw [survivorsSorted, List.mem_insertionSort] at hb
    exact of_decide_eq_true (List.mem_filter.mp hb).2
  · intro b hb
    rw [survivorsSorted, List.mem_insertionSort] at hb
    have hbm : b ∈ s.blocks.map (fun e => e.2.blockField) := (List.mem_filter.mp hb).1
    rw [← hdrain]
    exact List.mem_map_of_mem (fun b => b.block.hash) hbm
  · intro e he hgt
    rw [survivorsSorted, List.mem_insertionSort, List.mem_filter]
    exact ⟨List.mem_map_of_mem (fun e => e.2.blockField) he, decide_eq_true hgt⟩

/-- C2: after `remove_persisted_blocks(h)` on a well-formed block map, no
tracked block has number ≤ h, every previously tracked block with number > h
is still tracked under its hash, and every surviving state's parent chain
consists solely of still-tracked states — it terminates at `None` or at a
tracked block and never references an evicted one. -/
theorem remove_persisted_blocks_evicts_and_relinks (s : InMemoryState) (h : Nat)
    (hwf : ∀ e ∈ s.blocks, e.1 = e.2.hash) (hnk : nodupKeys s.blocks) :
    (∀ e ∈ (remove_persisted_blocks s h).blocks, h < e.2.number) ∧
    (∀ e ∈ (remove_persisted_blocks s h).numbers, h < e.1) ∧
    (∀ e ∈ s.blocks, h < e.2.number →
      ∃ bs, lookupKey (remove_persisted_blocks s h).blocks e.2.hash = some bs ∧
        bs.blockField = e.2.blockField) ∧
    (∀ e ∈ (remove_persisted_blocks s h).blocks, ∀ p ∈ e.2.parent_state_chain,
      lookupKey (remove_persisted_blocks s h).blocks p.hash = some p) := by
  obtain ⟨hnodup, hgt, hkeys, hsurv⟩ := survivorsSorted_facts s h hwf hnk
  rw [remove_persisted_unfold]
  refine ⟨?_, ?_, ?_, ?_⟩
  · intro e he
    rcases mem_foldl_insertBlock_blocks _ _ _ he with h0 | ⟨b, hb, _, hbf⟩
    · exact absurd h0 (List.not_mem_nil e)
    · rw [BlockState.number, hbf]
      exact hgt b hb
  · intro e he
    rcases mem_foldl_insertBlock_numbers _ _ _ he with h0 | ⟨b, hb, rfl⟩
    · exact absurd h0 (List.not_mem_nil e)
    · exact hgt b hb
  · intro e he hgt2
    obtain ⟨bs, hbs, hbf⟩ :=
      lookupKey_foldl_insertBlock_self (survivorsSorted s h) ⟨[], [], s.pending⟩ hnodup
        e.2.blockField (hsurv e he hgt2)
    exact ⟨bs, hbs, hbf⟩
  · exact (foldl_insertBlock_fresh_spec (survivorsSorted s h) ⟨[], [], s.pending⟩ hnodup
      (fun b _ => rfl) (fun e he => absurd he (List.not_mem_nil e))
      (fun e he => absurd he (List.not_mem_nil e))).2

/-- A concrete two-block state (hashes 1 and 2, numbers 1 and 2, the second
block linked to the first) for the eviction witness. -/
def twoBlockState : InMemoryState :=
  ⟨[(1, BlockState.new (testBlock 1 1 0)),
    (2, BlockState.with_parent (testBlock 2 2 1) (some (BlockState.new (testBlock 1 1 0))))],
   [(1, 1), (2, 2)], none⟩

/-- C2 witness: persisting height 1 on the two-block state. -/
theorem remove_persisted_blocks_evicts_and_relinks_witness :
    (∀ e ∈ (remove_persisted_blocks twoBlockState 1).blocks, 1 < e.2.number) ∧
    (∀ e ∈ (remove_persisted_blocks twoBlockState 1).numbers, 1 < e.1) ∧
    (∀ e ∈ twoBlockState.blocks, 1 < e.2.number →
      ∃ bs, lookupKey (remove_persisted_blocks twoBlockState 1).blocks e.2.hash = some bs ∧
        bs.blockField = e.2.blockField) ∧
    (∀ e ∈ (remove_persisted_blocks twoBlockState 1).blocks, ∀ p ∈ e.2.parent_state_chain,
      lookupKey (remove_persisted_blocks twoBlockState 1).blocks p.hash = some p) :=
  remove_persisted_blocks_evicts_and_relinks twoBlockState 1 (by decide)
    (show (twoBlockState.blocks.map Prod.fst).Nodup by decide)

/-- The `InMemoryState` structural invariant of claim C4: every number→hash
entry resolves to a tracked `BlockState` with matching number, the block map
holds at most one state per hash (each stored under its own hash), and the
pending block is not present in the canonical maps. -/
def Invariant (s : InMemoryState) : Prop :=
  (∀ e ∈ s.numbers, ∃ bs, lookupKey s.blocks e.2 = some bs ∧ bs.number = e.1) ∧
  ((∀ e ∈ s.blocks, e.1 = e.2.hash) ∧ nodupKeys s.blocks) ∧
  (∀ pb, s.pending = some pb → lookupKey s.blocks pb.hash = none)

/-- Transition blocks consistent with the tracked state: the new hashes are
distinct, and any transition block already tracked under its hash carries the
tracked number. -/
def TransitionConsistent (s : InMemoryState) : NewCanonicalChain → Prop
  | .Commit new =>
      (new.map (fun b => b.block.hash)).Nodup ∧
      ∀ b ∈ new, ∀ bs, lookupKey s.blocks b.block.hash = some bs →
        bs.number = b.block.number
  | .Reorg new old =>
      ((new.map (fun b => b.block.hash)).Nodup ∧
        ∀ b ∈ new, ∀ bs, lookupKey s.blocks b.block.hash = some bs →
          bs.number = b.block.number) ∧
      ∀ o ∈ old, ∀ bs, lookupKey s.blocks o.block.hash = some bs →
        bs.number = o.block.number

theorem update_blocks_invariant (s : InMemoryState) (new old : List ExecutedBlock)
    (hI : ∀ e ∈ s.numbers, ∃ bs, lookupKey s.blocks e.2 = some bs ∧ bs.number = e.1)
    (hwf : ∀ e ∈ s.blocks, e.1 = e.2.hash) (hnk : nodupKeys s.blocks)
    (hnodup : (new.map (fun b => b.block.hash)).Nodup)
    (hnew : ∀ b ∈ new, ∀ bs, lookupKey s.blocks b.block.hash = some bs →
      bs.number = b.block.number)
    (hold : ∀ o ∈ old, ∀ bs, lookupKey s.blocks o.block.hash = some bs →
      bs.number = o.block.number) :
    Invariant (update_blocks s new old) := by
  have hI1 := foldl_removeBlock_I1 old s hI hold
  have hwf1 := foldl_removeBlock_wf old s hwf hnk
  have hcons1 : ∀ b ∈ new, ∀ bs,
      lookupKey (old.foldl removeBlock s).blocks b.block.hash = some bs →
      bs.number = b.block.number := by
    intro b hb bs hbs
    exact hnew b hb bs (lookupKey_foldl_removeBlock_blocks_some _ _ _ _ hbs)
  have hI2 := foldl_insertBlock_I1 new (old.foldl removeBlock s) hI1 hnodup hcons1
  have hwf2 := foldl_insertBlock_wf new (old.foldl removeBlock s) hwf1.1 hwf1.2
  refine ⟨hI2, hwf2, ?_⟩
  intro pb hpb
  exact Option.noConfusion hpb

/-- C4 counterexample: the claim quantifies over every `update_chain` call,
but a `Reorg` whose `old` block records a number different from the tracked
entry under its hash leaves a dangling number entry, breaking the invariant. -/
theorem invariant_not_preserved_for_arbitrary_transitions :
    Invariant ⟨[(1, BlockState.new (testBlock 1 5 0))], [(5, 1)], none⟩ ∧
    ¬ Invariant (update_chain ⟨[(1, BlockState.new (testBlock 1 5 0))], [(5, 1)], none⟩
        (.Reorg [testBlock 2 100 0] [testBlock 1 99 0])) := by
  constructor
  · refine ⟨?_, ⟨?_, ?_⟩, ?_⟩
    · intro e he
      obtain rfl : e = (5, 1) := by simpa using he
      exact ⟨BlockState.new (testBlock 1 5 0), rfl, rfl⟩
    · intro e he
      obtain rfl : e = (1, BlockState.new (testBlock 1 5 0)) := by simpa using he
      rfl
    · simp [nodupKeys]
    · intro pb hpb
      exact Option.noConfusion hpb
  · intro hinv
    obtain ⟨bs, hbs, _⟩ := hinv.1 (5, 1) (by decide)
    have hn : lookupKey (update_chain ⟨[(1, BlockState.new (testBlock 1 5 0))], [(5, 1)], none⟩
        (.Reorg [testBlock 2 100 0] [testBlock 1 99 0])).blocks
        ((5, 1) : Nat × Nat).2 = none := rfl
    rw [hn] at hbs
    exact Option.noConfusion hbs

/-- C4 (amended): starting from any state satisfying the structural invariant,
`remove_persisted_blocks` preserves it for every height, and `update_chain`
preserves it for every transition whose blocks are consistent with the tracked
state (distinct new hashes; any transition block already tracked under its
hash carries the tracked number). -/
theorem invariant_preserved (s : InMemoryState) (hinv : Invariant s) :
    (∀ c : NewCanonicalChain, TransitionConsistent s c → Invariant (update_chain s c)) ∧
    ∀ h : Nat, Invariant (remove_persisted_blocks s h) := by
  obtain ⟨hI, ⟨hwf, hnk⟩, hpend⟩ := hinv
  constructor
  · intro c hc
    cases c with
    | Commit new =>
      exact update_blocks_invariant s new [] hI hwf hnk hc.1 hc.2
        (fun o ho => absurd ho (List.not_mem_nil o))
    | Reorg new old =>
      exact update_blocks_invariant s new old hI hwf hnk hc.1.1 hc.1.2 hc.2
  · intro h
    obtain ⟨hnodup, hgt, hkeys, hsurv⟩ := survivorsSorted_facts s h hwf hnk
    rw [remove_persisted_unfold]
    refine ⟨?_, ?_, ?_⟩
    · intro e he
      rcases mem_foldl_insertBlock_numbers _ _ _ he with h0 | ⟨b, hb, rfl⟩
      · exact absurd h0 (List.not_mem_nil e)
      · obtain ⟨bs, hbs, hbf⟩ :=
          lookupKey_foldl_insertBlock_self (survivorsSorted s h) ⟨[], [], s.pending⟩
            hnodup b hb
        refine ⟨bs, hbs, ?_⟩
        rw [BlockState.number, hbf]
    · exact foldl_insertBlock_wf _ _ (fun e he => absurd he (List.not_mem_nil e))
        (by simp [nodupKeys])
    · intro pb hpb
      rw [foldl_insertBlock_pending] at hpb
      have hnone := hpend pb hpb
      rw [lookupKey_eq_none_iff]
      intro hmem
      obtain ⟨e, he, hek⟩ := List.mem_map.mp hmem
      rcases mem_foldl_insertBlock_blocks _ _ _ he with h0 | ⟨b, hb, hkey, hbf⟩
      · exact absurd h0 (List.not_mem_nil e)
      · have hkm : pb.hash ∈ s.blocks.map Prod.fst := by
          rw [← hek, hkey]
          exact hkeys b hb
        exact (lookupKey_eq_none_iff _ _).mp hnone hkm

/-- C4 witness: the amended preservation applied to the empty state, a
consistent reorg, and height 5. -/
theorem invariant_preserved_witness :
    Invariant (update_chain ⟨[], [], none⟩
      (.Reorg [testBlock 2 1 1] [testBlock 9 9 9])) ∧
    Invariant (remove_persisted_blocks ⟨[], [], none⟩ 5) := by
  have hinv : Invariant ⟨[], [], none⟩ := by
    refine ⟨?_, ⟨?_, ?_⟩, ?_⟩
    · intro e he
      exact absurd he (List.not_mem_nil e)
    · intro e he
      exact absurd he (List.not_mem_nil e)
    · simp [nodupKeys]
    · intro pb hpb
      exact Option.noConfusion hpb
  have hc : TransitionConsistent ⟨[], [], none⟩
      (.Reorg [testBlock 2 1 1] [testBlock 9 9 9]) := by
    refine ⟨⟨?_, ?_⟩, ?_⟩
    · simp
    · intro b hb bs hbs
      exact Option.noConfusion hbs
    · intro o ho bs hbs
      exact Option.noConfusion hbs
  exact ⟨(invariant_preserved _ hinv).1 _ hc, (invariant_preserved _ hinv).2 5⟩

end Reth
